import Mathlib

/-!
Verification development for the zksync-era l1_recovery slice:

* core/node/l1_recovery/src/processor/genesis.rs (process_raw_entries and its
  callers), and
* core/node/l1_recovery/src/l1_fetcher/l1_fetcher.rs (get_blocks_to_process,
  parse_calldata, parse_commit_block_info, retry_call, process_tx_data).

Machine integers (H160, U256, u32, u64) are modelled as Nat; none of the
modelled operations overflow.  Rust panics are modelled as the none value of an
Option-typed result; fallible Rust code returning Result is modelled with
Except.
-/

/-! ### Part 1: processor/genesis.rs -/

/-- A raw storage-write record: (H160 address, U256 key, U256 value, u32
operation index), the element type consumed by process_raw_entries. -/
structure Record where
  addr : Nat
  key : Nat
  value : Nat
  op : Nat
deriving DecidableEq, Repr

/-- The sort key of the genesis comparator: (address, storage key, op index). -/
def recTriple (r : Record) : Nat × Nat × Nat := (r.addr, r.key, r.op)

/-- The comparator of process_raw_entries (genesis.rs lines 15-26): compare
address, then key, then op index; two records equal on all three panic with
"must be unique", modelled as none. -/
def cmpRec (a b : Record) : Option Ordering :=
  match compare a.addr b.addr with
  | .eq =>
    match compare a.key b.key with
    | .eq =>
      match compare a.op b.op with
      | .eq => none
      | o => some o
    | o => some o
  | o => some o

/-- Strict lexicographic order on (addr, key, op): the order in which the sort
of process_raw_entries arranges records. -/
def rlt (a b : Record) : Prop :=
  a.addr < b.addr ∨
    (a.addr = b.addr ∧ (a.key < b.key ∨ (a.key = b.key ∧ a.op < b.op)))

instance : DecidableRel rlt := fun a b => by unfold rlt; infer_instance

/-- Insertion step of the sort of process_raw_entries.  Vec::sort_by with a
comparator that panics on Equal must directly compare any two records with
equal sort keys (no chain of comparisons with other records can settle their
relative order), so the sort panics exactly when an insertion meets an equal
record; the panic is modelled as none. -/
def insertRec (r : Record) : List Record → Option (List Record)
  | [] => some [r]
  | x :: xs =>
    match cmpRec r x with
    | none => none
    | some .lt => some (r :: x :: xs)
    | some .eq => none
    | some .gt => (insertRec r xs).map (fun ys => x :: ys)

/-- The sort of process_raw_entries (genesis.rs line 15): sort by (addr, key,
op), panicking (none) when two records share that triple. -/
def sortRecs : List Record → Option (List Record)
  | [] => some []
  | x :: xs => (sortRecs xs).bind (insertRec x)

/-- The collapsing loop of process_raw_entries (genesis.rs lines 37-48): walk
the sorted records keeping a `previous`; whenever the (addr, key) pair changes,
emit the previous record's (addr, key, value); always emit the final one.  On a
run of records with equal (addr, key) only the last survives. -/
def dedupLast (previous : Record) : List Record → List (Nat × Nat × Nat)
  | [] => [(previous.addr, previous.key, previous.value)]
  | el :: rest =>
    if el.addr ≠ previous.addr ∨ el.key ≠ previous.key then
      (previous.addr, previous.key, previous.value) :: dedupLast el rest
    else
      dedupLast el rest

/-- Modelled from the spec: derive_final_address_for_params (the crate's utils
module, not part of this slice) derives the merkle key from address and slot
key by a fixed hash; it is modelled as the injective pairing of the two. -/
def derive_final_address_for_params (addr key : Nat) : Nat × Nat := (addr, key)

/-- A Merkle tree entry as produced by process_raw_entries: the derived key,
the 1-based leaf index, and the stored value. -/
structure TreeEntry where
  key : Nat × Nat
  leaf_index : Nat
  value : Nat
deriving DecidableEq, Repr

/-- The index-assignment loop of process_raw_entries (genesis.rs lines 52-63):
walk the collapsed records in order, giving out leaf indexes counting up from
the accumulator's starting value. -/
def assignIdx : Nat → List (Nat × Nat × Nat) → List TreeEntry
  | _, [] => []
  | i, (a, k, v) :: rest =>
    { key := derive_final_address_for_params a k, leaf_index := i, value := v }
      :: assignIdx (i + 1) rest

/-- process_raw_entries (genesis.rs lines 12-66): sort the records by (addr,
key, op) — panicking when two records share that triple —, collapse runs of
equal (addr, key) keeping the last record of each run, and assign 1-based leaf
indexes in that (sorted) order.  The `it.next().unwrap()` on line 38 panics on
an empty input; both panics are modelled as none. -/
def process_raw_entries (input : List Record) : Option (List TreeEntry) :=
  (sortRecs input).bind fun sorted =>
    match sorted with
    | [] => none
    | p :: rest => some (assignIdx 1 (dedupLast p rest))

/-! ### Part 2: l1_fetcher/l1_fetcher.rs — data model -/

/-- A raw contract bytecode (factory dependency), a byte vector. -/
abbrev Bytecode := List Nat

/-- Modelled from the spec: hash_bytecode (zksync_utils, outside this slice) is
the content hash used as the factory-dep dedup key; it is modelled as the
identity on bytecodes, an injective function of the content. -/
def hash_bytecode (b : Bytecode) : Bytecode := b

/-- Modelled from the spec: a priority (L1-originated) transaction as used by
get_blocks_to_process — its serial id and its execute.factory_deps list (L1Tx
is defined outside this slice). -/
structure PriorityTx where
  serial_id : Nat
  factory_deps : List Bytecode
deriving DecidableEq, Repr

/-- Modelled from the spec: CommitBlock (l1_fetcher/types, outside this slice)
is the decoded batch record; only the fields read or written by
get_blocks_to_process are modelled. -/
structure CommitBlock where
  l1_batch_number : Nat
  priority_operations_count : Nat
  factory_deps : List Bytecode
deriving DecidableEq, Repr

/-- The dep-merging loop of get_blocks_to_process (l1_fetcher.rs lines
208-217): walk one priority tx's factory deps; a dep whose hash is already in
factory_deps_hashes is skipped, otherwise its hash is recorded and the dep is
kept.  Returns the grown hash set (a list used as a set) and the deps kept. -/
def mergeDeps (seen : List Bytecode) : List Bytecode → List Bytecode × List Bytecode
  | [] => (seen, [])
  | d :: ds =>
    if hash_bytecode d ∈ seen then mergeDeps seen ds
    else
      let r := mergeDeps (hash_bytecode d :: seen) ds
      (r.1, d :: r.2)

/-- The mutable state of one get_blocks_to_process run: the accumulated
priority_txs vector, the last_processed_priority_tx cursor, the
factory_deps_hashes set and the result vector (l1_fetcher.rs lines 150-154). -/
structure FetchState where
  priority_txs : List PriorityTx
  last_processed_priority_tx : Nat
  factory_deps_hashes : List Bytecode
  result : List CommitBlock
deriving DecidableEq, Repr

/-- The per-block drain loop of get_blocks_to_process (lines 201-219): read
priority_operations_count transactions at indexes last_processed.. of the
priority_txs vector, merging each one's factory deps; the Vec indexing on line
202 panics when the index is past the end (modelled none). -/
def drainTxs (queue : List PriorityTx) (seen deps : List Bytecode) (idx : Nat) :
    Nat → Option (List Bytecode × List Bytecode × Nat)
  | 0 => some (seen, deps, idx)
  | n + 1 =>
    match queue.get? idx with
    | none => none
    | some tx =>
      let m := mergeDeps seen tx.factory_deps
      drainTxs queue m.1 (deps ++ m.2) (idx + 1) n

/-- Processing of one decoded block inside get_blocks_to_process (lines
200-221): drain its priority operations, append the merged deps to the block's
factory_deps, and push the block onto the result. -/
def processBlockFD (st : FetchState) (b : CommitBlock) : Option FetchState :=
  (drainTxs st.priority_txs st.factory_deps_hashes b.factory_deps
      st.last_processed_priority_tx b.priority_operations_count).map fun r =>
    { priority_txs := st.priority_txs
      last_processed_priority_tx := r.2.2
      factory_deps_hashes := r.1
      result := st.result ++ [{ b with factory_deps := r.2.1 }] }

/-- One block window of already-fetched L1 data: the priority transactions
found by fetch_priority_txs in the window (lines 158-161) and the commit
blocks decoded from the window's commit logs (lines 187-199), flattened in log
order.  The RPC fetching itself is external. -/
structure Window where
  priorityTxs : List PriorityTx
  blocks : List CommitBlock
deriving DecidableEq, Repr

/-- One iteration of the window loop of get_blocks_to_process (lines 156-229):
the window's priority txs are appended to the queue first, then each decoded
block of the window is processed in order. -/
def processWindow (st : FetchState) (w : Window) : Option FetchState :=
  w.blocks.foldlM processBlockFD
    { st with priority_txs := st.priority_txs ++ w.priorityTxs }

/-- The initial run state (lines 150-154): empty queue, cursor 0, empty hash
set, empty result. -/
def initState : FetchState :=
  { priority_txs := [], last_processed_priority_tx := 0
    factory_deps_hashes := [], result := [] }

/-- get_blocks_to_process (lines 137-231) over already-fetched window data:
fold the window loop from the initial state and return the result vector;
panics anywhere in the loop (priority-queue underflow indexing) are modelled
as none. -/
def get_blocks_to_process (ws : List Window) : Option (List CommitBlock) :=
  (ws.foldlM processWindow initState).map FetchState.result

/-! ### Part 2b: l1_fetcher.rs — calldata parsing -/

/-- The error type of the decode layer (l1_fetcher/types, outside this slice);
the variants are the ones matched in l1_fetcher.rs. -/
inductive ParseError where
  | InvalidCalldata (msg : String)
  | InvalidStoredBlockInfo (msg : String)
  | InvalidCommitBlockInfo (msg : String)
  | BlobStorageError (msg : String)
  | BlobFormatError (data msg : String)
deriving DecidableEq, Repr

/-- An ethabi token (external crate), restricted to the shapes parse_calldata
inspects: unsigned integers, tuples, arrays, and anything else. -/
inductive Token where
  | Uint (v : Nat)
  | Tuple (fields : List Token)
  | Array (elems : List Token)
  | Other

/-- The three wire formats of parse_commit_block_info: the legacy V1 decoder,
the intermediate V2 decoder, and the blob-carried (try_from_token_resolve)
decoder. -/
inductive WireFormat where
  | V1
  | V2
  | Blob
deriving DecidableEq, Repr

/-- The protocol version schedule (l1_fetcher.rs lines 39-45). -/
inductive ProtocolVersioning where
  | OnlyV3
  | AllVersions (v2_start_batch_number v3_start_batch_number : Nat)
deriving DecidableEq, Repr

/-- The wire-format selection inside parse_commit_block_info's loop (lines
403-418): OnlyV3 uses thresholds (0, 0); AllVersions uses its two thresholds;
a block number at or above the v3 threshold selects the blob decoder, else at
or above the v2 threshold the V2 decoder, else the V1 decoder. -/
def selectFormat (versioning : ProtocolVersioning) (l1_block_number : Nat) :
    WireFormat :=
  let p : Nat × Nat :=
    match versioning with
    | .OnlyV3 => (0, 0)
    | .AllVersions v2 v3 => (v2, v3)
  if l1_block_number ≥ p.2 then .Blob
  else if l1_block_number ≥ p.1 then .V2
  else .V1

/-- parse_commit_block_info (lines 389-425), parameterized by the per-element
decoder (CommitBlock::try_from_token for V1/V2 and try_from_token_resolve for
blobs live in l1_fetcher/types, outside this slice): the data must be an
array; each element is decoded with the format selected from the containing
transaction's L1 block number, the first failure aborting the call. -/
def parse_commit_block_info
    (decodeElem : WireFormat → Token → Except ParseError CommitBlock)
    (versioning : ProtocolVersioning) (data : Token) (l1_block_number : Nat) :
    Except ParseError (List CommitBlock) :=
  match data with
  | .Array ds => ds.mapM (fun d => decodeElem (selectFormat versioning l1_block_number) d)
  | _ => .error (.InvalidCommitBlockInfo "cannot convert newBlocksData to array")

/-- An ethabi Function (external crate) as used by parse_calldata: its 4-byte
short signature and its decode_input, the latter an external ABI decoder
modelled as an arbitrary function from argument bytes to decoded tokens (none
on decode failure). -/
structure FunctionABI where
  short_signature : List Nat
  decode_input : List Nat → Option (List Token)

/-- parse_calldata (lines 326-387).  Typed failures are Except errors; the Vec
indexing stored_block_info[0] and stored_block_info[2] on lines 366 and 372
panics when the decoded tuple is too short, modelled as a none result. -/
def parse_calldata
    (decodeElem : WireFormat → Token → Except ParseError CommitBlock)
    (versioning : ProtocolVersioning) (l1_block_number : Nat)
    (commit_candidates : List FunctionABI) (calldata : List Nat) :
    Option (Except ParseError (List CommitBlock)) :=
  if calldata.length < 4 then some (.error (.InvalidCalldata "too short"))
  else
    match commit_candidates.find? (fun f => f.short_signature == calldata.take 4) with
    | none => some (.error (.InvalidCalldata "signature not found"))
    | some commit_fn =>
      match commit_fn.decode_input (calldata.drop 4) with
      | none => some (.error (.InvalidCalldata "cannot decode input"))
      | some parsed_input =>
        if parsed_input.length ≠ 2 ∧ parsed_input.length ≠ 3 then
          some (.error (.InvalidCalldata "invalid number of parameters"))
        else
          match parsed_input.getLast? with
          | none => some (.error (.InvalidCalldata "new blocks data"))
          | some new_blocks_data =>
            match parsed_input.dropLast.getLast? with
            | none => some (.error (.InvalidCalldata "stored block info"))
            | some stored_block_info =>
              match stored_block_info with
              | .Tuple fields =>
                match fields.get? 0 with
                | none => none
                | some t0 =>
                  match t0 with
                  | .Uint _ =>
                    match fields.get? 2 with
                    | none => none
                    | some t2 =>
                      match t2 with
                      | .Uint _ =>
                        some (parse_commit_block_info decodeElem versioning
                          new_blocks_data l1_block_number)
                      | _ => some (.error (.InvalidStoredBlockInfo
                          "cannot parse previous enumeration index"))
                  | _ => some (.error (.InvalidStoredBlockInfo
                      "cannot parse previous L1 batch number"))
              | _ => some (.error (.InvalidCalldata "invalid StoredBlockInfo"))

/-! ### Part 2c: l1_fetcher.rs — retry policy -/

/-- MAX_RETRIES (l1_fetcher.rs line 23). -/
def MAX_RETRIES : Nat := 5

/-- The error values retry_call fails with after exhaustion (lines 26-36). -/
inductive L1FetchError where
  | GetLogs
  | GetTx
  | GetEndBlockNumber
deriving DecidableEq, Repr

/-- The observable trace of one retry_call invocation: its result, the number
of attempts made, and the sleep durations (in milliseconds) between them. -/
structure RetryTrace (T : Type) where
  result : Except L1FetchError T
  attempts : Nat
  sleeps : List Nat
deriving Repr

/-- The attempt loop of retry_call (lines 314-322) over an attempt-indexed
outcome sequence (what the external RPC callback returns at each attempt;
none is a transport failure) and a jitter sequence (the random u64 drawn
before each sleep): run the countdown from the given attempt number, sleeping
2000 + jitter % 500 milliseconds after each failure. -/
def retryAux {T : Type} (callback : Nat → Option T) (jitter : Nat → Nat)
    (err : L1FetchError) : Nat → Nat → RetryTrace T
  | 0, _ => ⟨.error err, 0, []⟩
  | n + 1, attempt =>
    match callback attempt with
    | some x => ⟨.ok x, 1, []⟩
    | none =>
      let r := retryAux callback jitter err n (attempt + 1)
      ⟨r.result, r.attempts + 1, (2000 + jitter attempt % 500) :: r.sleeps⟩

/-- retry_call (lines 309-324): attempts numbered 1..=MAX_RETRIES, failing
with the supplied L1FetchError once all attempts fail. -/
def retry_call {T : Type} (callback : Nat → Option T) (jitter : Nat → Nat)
    (err : L1FetchError) : RetryTrace T :=
  retryAux callback jitter err MAX_RETRIES 1

/-- process_tx_data (lines 233-273): the surrounding loop either breaks with
the parsed blocks or returns the parse error in its first iteration — every
match arm leaves the loop — so it is a single parse_calldata call; a decode
error is returned to the caller unchanged, never retried. -/
def process_tx_data
    (decodeElem : WireFormat → Token → Except ParseError CommitBlock)
    (versioning : ProtocolVersioning) (block_number : Nat)
    (commit_functions : List FunctionABI) (calldata : List Nat) :
    Option (Except ParseError (List CommitBlock)) :=
  parse_calldata decodeElem versioning block_number commit_functions calldata


/-! ### Part 2d: derived observers used by the statements below -/

/-- Strict lexicographic order on (address, key) pairs. -/
def pairLt (p q : Nat × Nat) : Prop := p.1 < q.1 ∨ (p.1 = q.1 ∧ p.2 < q.2)

/-- All priority transactions fetched over a run, in fetch order (the order
they are appended to the queue). -/
def allPriorityTxs (ws : List Window) : List PriorityTx :=
  ws.flatMap Window.priorityTxs

/-- All decoded blocks of a run, in processing order. -/
def origBlocks (ws : List Window) : List CommitBlock :=
  ws.flatMap Window.blocks

/-- The total number of priority operations claimed by the run's blocks. -/
def totalPriorityOps (ws : List Window) : Nat :=
  ((origBlocks ws).map CommitBlock.priority_operations_count).sum

/-- How an output block relates to the decoded block it came from: batch
number and priority count unchanged, factory deps extended by the merged
(priority-sourced) deps. -/
def blockOutRel (o r : CommitBlock) : Prop :=
  r.l1_batch_number = o.l1_batch_number ∧
  r.priority_operations_count = o.priority_operations_count ∧
  ∃ nd, r.factory_deps = o.factory_deps ++ nd

/-- The hashes of the deps the run merged into each block from priority
transactions: for each (decoded, output) block pair, the part of the output's
dep list beyond the decoded block's own deps. -/
def mergedDepHashes (origs outs : List CommitBlock) : List Bytecode :=
  ((origs.zip outs).flatMap fun p =>
    p.2.factory_deps.drop p.1.factory_deps.length).map hash_bytecode

/-! ### Part 3: lemmas about the sort of process_raw_entries -/

theorem cmpRec_eq_none_iff (a b : Record) :
    cmpRec a b = none ↔ recTriple a = recTriple b := by
  unfold cmpRec recTriple
  constructor
  · intro h
    (repeat' split at h) <;>
      simp_all [Nat.compare_eq_eq, Nat.compare_eq_lt, Nat.compare_eq_gt, Prod.ext_iff]
  · intro h
    simp only [Prod.ext_iff] at h
    rw [Nat.compare_eq_eq.mpr h.1, Nat.compare_eq_eq.mpr h.2.1,
      Nat.compare_eq_eq.mpr h.2.2]

theorem cmpRec_eq_lt_iff (a b : Record) :
    cmpRec a b = some .lt ↔ rlt a b := by
  unfold cmpRec rlt
  constructor
  · intro h
    (repeat' split at h) <;>
      simp_all [Nat.compare_eq_eq, Nat.compare_eq_lt, Nat.compare_eq_gt]
  · intro h
    rcases Nat.lt_trichotomy a.addr b.addr with h1 | h1 | h1
    · rw [Nat.compare_eq_lt.mpr h1]
    · rw [Nat.compare_eq_eq.mpr h1]
      rcases Nat.lt_trichotomy a.key b.key with h2 | h2 | h2
      · rw [Nat.compare_eq_lt.mpr h2]
      · rw [Nat.compare_eq_eq.mpr h2]
        rcases Nat.lt_trichotomy a.op b.op with h3 | h3 | h3
        · rw [Nat.compare_eq_lt.mpr h3]
        · unfold rlt at h; omega
        · unfold rlt at h; omega
      · unfold rlt at h; omega
    · unfold rlt at h; omega

theorem cmpRec_eq_gt_iff (a b : Record) :
    cmpRec a b = some .gt ↔ rlt b a := by
  unfold cmpRec rlt
  constructor
  · intro h
    (repeat' split at h) <;>
      simp_all [Nat.compare_eq_eq, Nat.compare_eq_lt, Nat.compare_eq_gt]
  · intro h
    rcases Nat.lt_trichotomy a.addr b.addr with h1 | h1 | h1
    · unfold rlt at h; omega
    · rw [Nat.compare_eq_eq.mpr h1]
      rcases Nat.lt_trichotomy a.key b.key with h2 | h2 | h2
      · unfold rlt at h; omega
      · rw [Nat.compare_eq_eq.mpr h2]
        rcases Nat.lt_trichotomy a.op b.op with h3 | h3 | h3
        · unfold rlt at h; omega
        · unfold rlt at h; omega
        · rw [Nat.compare_eq_gt.mpr h3]
      · rw [Nat.compare_eq_gt.mpr h2]
    · rw [Nat.compare_eq_gt.mpr h1]

theorem cmpRec_ne_some_eq (a b : Record) : cmpRec a b ≠ some .eq := by
  unfold cmpRec
  intro h
  (repeat' split at h) <;> simp_all

theorem rlt_trans {a b c : Record} (h1 : rlt a b) (h2 : rlt b c) : rlt a c := by
  unfold rlt at h1 h2 ⊢; omega

theorem rlt_triple_ne {a b : Record} (h : rlt a b) : recTriple a ≠ recTriple b := by
  unfold rlt at h
  simp only [recTriple, ne_eq, Prod.mk.injEq, not_and]
  omega

theorem insertRec_perm (r : Record) (xs : List Record) :
    ∀ ys, insertRec r xs = some ys → List.Perm ys (r :: xs) := by
  induction xs with
  | nil =>
    intro ys h
    simp only [insertRec, Option.some.injEq] at h
    subst h
    exact .refl _
  | cons x xs ih =>
    intro ys h
    unfold insertRec at h
    cases hc : cmpRec r x <;> rw [hc] at h
    · simp at h
    · rename_i o
      cases o
      · simp only [Option.some.injEq] at h
        subst h
        exact .refl _
      · simp at h
      · simp only [Option.map_eq_some'] at h
        obtain ⟨zs, hz, rfl⟩ := h
        exact ((ih zs hz).cons x).trans (List.Perm.swap r x xs)

theorem insertRec_pairwise (r : Record) (xs : List Record) :
    ∀ ys, List.Pairwise rlt xs → insertRec r xs = some ys →
      List.Pairwise rlt ys := by
  induction xs with
  | nil =>
    intro ys _ h
    simp only [insertRec, Option.some.injEq] at h
    subst h
    exact List.pairwise_singleton _ _
  | cons x xs ih =>
    intro ys hp h
    unfold insertRec at h
    rcases hp with _ | ⟨hx, hxs⟩
    cases hc : cmpRec r x <;> rw [hc] at h
    · simp at h
    · rename_i o
      cases o
      · simp only [Option.some.injEq] at h
        subst h
        have hrx : rlt r x := (cmpRec_eq_lt_iff r x).mp hc
        refine List.Pairwise.cons ?_ (List.Pairwise.cons hx hxs)
        intro y hy
        rcases List.mem_cons.mp hy with rfl | hy
        · exact hrx
        · exact rlt_trans hrx (hx y hy)
      · simp at h
      · simp only [Option.map_eq_some'] at h
        obtain ⟨zs, hz, rfl⟩ := h
        have hxr : rlt x r := (cmpRec_eq_gt_iff r x).mp hc
        refine List.Pairwise.cons ?_ (ih zs hxs hz)
        intro y hy
        have : y ∈ r :: xs := (insertRec_perm r xs zs hz).subset hy
        rcases List.mem_cons.mp this with rfl | hy2
        · exact hxr
        · exact hx y hy2

theorem insertRec_total (r : Record) (xs : List Record)
    (h : recTriple r ∉ xs.map recTriple) : ∃ ys, insertRec r xs = some ys := by
  induction xs with
  | nil => exact ⟨[r], rfl⟩
  | cons x xs ih =>
    have hne : recTriple r ≠ recTriple x := by
      intro he
      exact h (by simp [he])
    have hxs : recTriple r ∉ xs.map recTriple := by
      intro hm
      exact h (by simp [hm])
    cases hc : cmpRec r x with
    | none => exact absurd ((cmpRec_eq_none_iff r x).mp hc) hne
    | some o =>
      cases o with
      | lt => exact ⟨r :: x :: xs, by unfold insertRec; rw [hc]⟩
      | eq => exact absurd hc (cmpRec_ne_some_eq r x)
      | gt =>
        obtain ⟨zs, hz⟩ := ih hxs
        exact ⟨x :: zs, by unfold insertRec; rw [hc, hz]; rfl⟩

theorem sortRecs_spec (l : List Record) :
    ∀ s, sortRecs l = some s → List.Perm s l ∧ List.Pairwise rlt s := by
  induction l with
  | nil =>
    intro s h
    simp only [sortRecs, Option.some.injEq] at h
    subst h
    exact ⟨.refl _, .nil⟩
  | cons x xs ih =>
    intro s h
    unfold sortRecs at h
    rcases ho : sortRecs xs with _ | s0 <;> rw [ho] at h
    · simp at h
    · simp only [Option.some_bind] at h
      obtain ⟨hperm0, hpair0⟩ := ih s0 ho
      exact ⟨(insertRec_perm x s0 s h).trans (hperm0.cons x),
        insertRec_pairwise x s0 s hpair0 h⟩

theorem sortRecs_total (l : List Record) (h : (l.map recTriple).Nodup) :
    ∃ s, sortRecs l = some s := by
  induction l with
  | nil => exact ⟨[], rfl⟩
  | cons x xs ih =>
    simp only [List.map_cons, List.nodup_cons] at h
    obtain ⟨s0, hs0⟩ := ih h.2
    have hperm := (sortRecs_spec xs s0 hs0).1
    have hmem : recTriple x ∉ s0.map recTriple := by
      intro hm
      exact h.1 ((hperm.map recTriple).subset hm)
    obtain ⟨s, hs⟩ := insertRec_total x s0 hmem
    exact ⟨s, by unfold sortRecs; rw [hs0, Option.some_bind, hs]⟩

theorem sortRecs_nodup (l s : List Record) (h : sortRecs l = some s) :
    (l.map recTriple).Nodup := by
  obtain ⟨hperm, hpair⟩ := sortRecs_spec l s h
  have hnd : (s.map recTriple).Nodup :=
    List.Pairwise.map recTriple (fun a b hab => rlt_triple_ne hab) hpair
  exact (List.Perm.nodup_iff (hperm.map recTriple)).mp hnd

/-! ### Part 4: lemmas about the collapsing and index-assignment loops -/

theorem pairLt_of_step {p el ry : Record} (h1 : rlt p el)
    (hg : el.addr ≠ p.addr ∨ el.key ≠ p.key)
    (h2 : ry = el ∨ rlt el ry) : pairLt (p.addr, p.key) (ry.addr, ry.key) := by
  have goal : p.addr < ry.addr ∨ (p.addr = ry.addr ∧ p.key < ry.key) := by
    unfold rlt at h1
    rcases h2 with rfl | h2
    · omega
    · unfold rlt at h2; omega
  exact goal

theorem dedupLast_mem_src (p : Record) (rest : List Record) :
    ∀ x ∈ dedupLast p rest, ∃ r ∈ p :: rest, x = (r.addr, r.key, r.value) := by
  induction rest generalizing p with
  | nil =>
    intro x hx
    simp only [dedupLast, List.mem_singleton] at hx
    exact ⟨p, by simp, hx⟩
  | cons el t ih =>
    intro x hx
    unfold dedupLast at hx
    split at hx
    · rcases List.mem_cons.mp hx with rfl | hx2
      · exact ⟨p, by simp, rfl⟩
      · obtain ⟨r, hr, he⟩ := ih el x hx2
        exact ⟨r, List.mem_cons_of_mem p hr, he⟩
    · obtain ⟨r, hr, he⟩ := ih el x hx
      exact ⟨r, List.mem_cons_of_mem p hr, he⟩

theorem dedupLast_mem_of_max (p : Record) (rest : List Record)
    (hp : List.Pairwise rlt (p :: rest)) (r : Record) (hr : r ∈ p :: rest)
    (hmax : ∀ s ∈ p :: rest, s.addr = r.addr → s.key = r.key → s.op ≤ r.op) :
    (r.addr, r.key, r.value) ∈ dedupLast p rest := by
  induction rest generalizing p with
  | nil =>
    have : r = p := List.mem_singleton.mp hr
    subst this
    simp [dedupLast]
  | cons el t ih =>
    obtain ⟨hpall, hp2⟩ := List.pairwise_cons.mp hp
    unfold dedupLast
    split
    · rcases List.mem_cons.mp hr with rfl | hr2
      · exact List.mem_cons_self _ _
      · refine List.mem_cons_of_mem _ (ih el hp2 hr2 ?_)
        intro s hs ha hk
        exact hmax s (List.mem_cons_of_mem p hs) ha hk
    · rename_i hg
      push_neg at hg
      rcases List.mem_cons.mp hr with rfl | hr2
      · exfalso
        have hpel : rlt r el := hpall el (List.mem_cons_self _ _)
        have hle : el.op ≤ r.op :=
          hmax el (List.mem_cons_of_mem r (List.mem_cons_self _ _)) hg.1 hg.2
        unfold rlt at hpel
        omega
      · exact ih el hp2 hr2 (fun s hs ha hk => hmax s (List.mem_cons_of_mem p hs) ha hk)

theorem dedupLast_pairwise (p : Record) (rest : List Record)
    (hp : List.Pairwise rlt (p :: rest)) :
    List.Pairwise (fun x y => pairLt (x.1, x.2.1) (y.1, y.2.1)) (dedupLast p rest) := by
  induction rest generalizing p with
  | nil => simp [dedupLast]
  | cons el t ih =>
    obtain ⟨hpall, hp2⟩ := List.pairwise_cons.mp hp
    unfold dedupLast
    split
    · rename_i hg
      refine List.Pairwise.cons ?_ (ih el hp2)
      intro y hy
      obtain ⟨ry, hry, rfl⟩ := dedupLast_mem_src el t y hy
      have h1 : rlt p el := hpall el (List.mem_cons_self _ _)
      have h2 : ry = el ∨ rlt el ry := by
        rcases List.mem_cons.mp hry with rfl | hm
        · exact .inl rfl
        · exact .inr ((List.pairwise_cons.mp hp2).1 ry hm)
      exact pairLt_of_step h1 hg h2
    · exact ih el hp2

theorem exists_max_in_group (l : List Record) (a k : Nat)
    (hex : ∃ r ∈ l, r.addr = a ∧ r.key = k) :
    ∃ m ∈ l, m.addr = a ∧ m.key = k ∧
      ∀ s ∈ l, s.addr = a → s.key = k → s.op ≤ m.op := by
  induction l with
  | nil => simp at hex
  | cons x t ih =>
    by_cases ht : ∃ r ∈ t, r.addr = a ∧ r.key = k
    · obtain ⟨m, hm, hma, hmk, hmax⟩ := ih ht
      by_cases hx : x.addr = a ∧ x.key = k
      · by_cases hop : x.op ≤ m.op
        · refine ⟨m, List.mem_cons_of_mem x hm, hma, hmk, ?_⟩
          intro s hs ha hk
          rcases List.mem_cons.mp hs with rfl | hs2
          · exact hop
          · exact hmax s hs2 ha hk
        · refine ⟨x, List.mem_cons_self _ _, hx.1, hx.2, ?_⟩
          intro s hs ha hk
          rcases List.mem_cons.mp hs with rfl | hs2
          · exact Nat.le_refl _
          · exact Nat.le_trans (hmax s hs2 ha hk) (Nat.le_of_not_le hop)
      · refine ⟨m, List.mem_cons_of_mem x hm, hma, hmk, ?_⟩
        intro s hs ha hk
        rcases List.mem_cons.mp hs with rfl | hs2
        · exact absurd ⟨ha, hk⟩ hx
        · exact hmax s hs2 ha hk
    · obtain ⟨r, hr, hra, hrk⟩ := hex
      rcases List.mem_cons.mp hr with rfl | hr2
      · refine ⟨r, List.mem_cons_self _ _, hra, hrk, ?_⟩
        intro s hs ha hk
        rcases List.mem_cons.mp hs with rfl | hs2
        · exact Nat.le_refl _
        · exact absurd ⟨s, hs2, ha, hk⟩ ht
      · exact absurd ⟨r, hr2, hra, hrk⟩ ht

theorem pairwise_mem_cases {α : Type} {R : α → α → Prop} {l : List α}
    (h : List.Pairwise R l) {x y : α} (hx : x ∈ l) (hy : y ∈ l) :
    x = y ∨ R x y ∨ R y x := by
  induction l with
  | nil => simp at hx
  | cons a t ih =>
    obtain ⟨ha, ht⟩ := List.pairwise_cons.mp h
    rcases List.mem_cons.mp hx with rfl | hx2
    · rcases List.mem_cons.mp hy with rfl | hy2
      · exact .inl rfl
      · exact .inr (.inl (ha y hy2))
    · rcases List.mem_cons.mp hy with rfl | hy2
      · exact .inr (.inr (ha x hx2))
      · exact ih ht hx2 hy2

theorem assignIdx_mem (i : Nat) (m : List (Nat × Nat × Nat)) :
    ∀ x ∈ m, ∃ e ∈ assignIdx i m, e.key = (x.1, x.2.1) ∧ e.value = x.2.2 := by
  induction m generalizing i with
  | nil => simp
  | cons hd t ih =>
    obtain ⟨a, k, v⟩ := hd
    intro x hx
    rcases List.mem_cons.mp hx with rfl | hx2
    · exact ⟨⟨(a, k), i, v⟩, List.mem_cons_self _ _, rfl, rfl⟩
    · obtain ⟨e, he, hk, hv⟩ := ih (i + 1) x hx2
      exact ⟨e, List.mem_cons_of_mem _ he, hk, hv⟩

theorem assignIdx_mem_src (i : Nat) (m : List (Nat × Nat × Nat)) :
    ∀ e ∈ assignIdx i m, ∃ x ∈ m, e.key = (x.1, x.2.1) ∧ e.value = x.2.2 := by
  induction m generalizing i with
  | nil => simp [assignIdx]
  | cons hd t ih =>
    obtain ⟨a, k, v⟩ := hd
    intro e he
    rcases List.mem_cons.mp he with rfl | he2
    · exact ⟨(a, k, v), List.mem_cons_self _ _, rfl, rfl⟩
    · obtain ⟨x, hx, hk, hv⟩ := ih (i + 1) e he2
      exact ⟨x, List.mem_cons_of_mem _ hx, hk, hv⟩

theorem assignIdx_leaf_indexes (m : List (Nat × Nat × Nat)) :
    ∀ i, (assignIdx i m).map TreeEntry.leaf_index = List.range' i m.length := by
  induction m with
  | nil => intro i; simp [assignIdx]
  | cons hd t ih =>
    obtain ⟨a, k, v⟩ := hd
    intro i
    simp only [assignIdx, List.map_cons, List.length_cons, List.range'_succ]
    rw [ih (i + 1)]

theorem assignIdx_pairwise (m : List (Nat × Nat × Nat))
    (hm : List.Pairwise (fun x y => pairLt (x.1, x.2.1) (y.1, y.2.1)) m) :
    ∀ i, List.Pairwise (fun e f => pairLt e.key f.key) (assignIdx i m) := by
  induction m with
  | nil => intro i; simp [assignIdx]
  | cons hd t ih =>
    obtain ⟨a, k, v⟩ := hd
    obtain ⟨hhd, ht⟩ := List.pairwise_cons.mp hm
    intro i
    refine List.Pairwise.cons ?_ (ih ht (i + 1))
    intro e he
    obtain ⟨x, hx, hk, _⟩ := assignIdx_mem_src (i + 1) t e he
    rw [hk]
    exact hhd x hx

/-- Dissection of a successful process_raw_entries run: the sort succeeded and
the output is the collapsed, index-assigned sorted list. -/
theorem process_raw_entries_eq (l : List Record) (out : List TreeEntry)
    (hout : process_raw_entries l = some out) :
    ∃ p rest, sortRecs l = some (p :: rest) ∧
      List.Perm (p :: rest) l ∧ List.Pairwise rlt (p :: rest) ∧
      out = assignIdx 1 (dedupLast p rest) := by
  unfold process_raw_entries at hout
  rcases hs : sortRecs l with _ | sorted <;> rw [hs] at hout
  · simp at hout
  · simp only [Option.some_bind] at hout
    rcases sorted with _ | ⟨p, rest⟩
    · simp at hout
    · simp only [Option.some.injEq] at hout
      obtain ⟨hperm, hpair⟩ := sortRecs_spec l (p :: rest) hs
      exact ⟨p, rest, rfl, hperm, hpair, hout.symm⟩

theorem pairLt_irrefl (p : Nat × Nat) : ¬ pairLt p p := by
  unfold pairLt; omega

/-- C2: for every input with at least one record and for every (address, key)
pair in it, the TreeEntry produced by process_raw_entries for that pair stores
the value of the pair's record with the maximum operation index (last write
wins).  Stated for every record r that is op-maximal within its (address, key)
group: some entry with that pair's derived key exists in the output and every
entry with that derived key stores r's value. -/
theorem C2_last_write_wins (l : List Record) (out : List TreeEntry)
    (hout : process_raw_entries l = some out) (r : Record) (hr : r ∈ l)
    (hmax : ∀ s ∈ l, s.addr = r.addr → s.key = r.key → s.op ≤ r.op) :
    (∃ e ∈ out, e.key = derive_final_address_for_params r.addr r.key ∧
      e.value = r.value) ∧
    (∀ e ∈ out, e.key = derive_final_address_for_params r.addr r.key →
      e.value = r.value) := by
  obtain ⟨p, rest, hs, hperm, hpair, hform⟩ := process_raw_entries_eq l out hout
  subst hform
  have hrs : r ∈ p :: rest := hperm.mem_iff.mpr hr
  have hmax2 : ∀ s ∈ p :: rest, s.addr = r.addr → s.key = r.key → s.op ≤ r.op :=
    fun s hsm => hmax s (hperm.subset hsm)
  have hmem := dedupLast_mem_of_max p rest hpair r hrs hmax2
  constructor
  · obtain ⟨e, he, hk, hv⟩ := assignIdx_mem 1 (dedupLast p rest) _ hmem
    exact ⟨e, he, hk, hv⟩
  · intro e he hk
    obtain ⟨x, hx, hxk, hxv⟩ := assignIdx_mem_src 1 (dedupLast p rest) e he
    have hkey : (x.1, x.2.1) = ((r.addr, r.key, r.value).1, (r.addr, r.key, r.value).2.1) := by
      rw [← hxk, hk]
      rfl
    have hpw := dedupLast_pairwise p rest hpair
    rcases pairwise_mem_cases hpw hx hmem with heq | hlt | hlt
    · rw [hxv, heq]
    · exfalso
      have hlt2 := hlt
      rw [show ((r.addr, r.key, r.value).1, (r.addr, r.key, r.value).2.1) = (r.addr, r.key) from rfl] at hlt2
      rw [show ((x.1 : Nat), x.2.1) = (r.addr, r.key) from hkey] at hlt2
      exact pairLt_irrefl _ hlt2
    · exfalso
      have hlt2 := hlt
      rw [show ((r.addr, r.key, r.value).1, (r.addr, r.key, r.value).2.1) = (r.addr, r.key) from rfl] at hlt2
      rw [show ((x.1 : Nat), x.2.1) = (r.addr, r.key) from hkey] at hlt2
      exact pairLt_irrefl _ hlt2

/-- C2 witness: the spec's own example — writes to pair (0, 0) with op indexes
{3, 7, 5} and values 10, 70, 50 deliver the value 70 of op index 7. -/
theorem C2_last_write_wins_witness :
    (∃ e ∈ [TreeEntry.mk (0, 0) 1 70],
      e.key = derive_final_address_for_params 0 0 ∧ e.value = 70) ∧
    (∀ e ∈ [TreeEntry.mk (0, 0) 1 70],
      e.key = derive_final_address_for_params 0 0 → e.value = 70) :=
  C2_last_write_wins [⟨0, 0, 10, 3⟩, ⟨0, 0, 70, 7⟩, ⟨0, 0, 50, 5⟩]
    [TreeEntry.mk (0, 0) 1 70] rfl ⟨0, 0, 70, 7⟩ (by decide) (by decide)

/-- C3 counterexample: on the input whose first write touches pair (1, 0) and
whose second write touches pair (0, 0), process_raw_entries gives leaf index 1
to pair (0, 0) and leaf index 2 to pair (1, 0) — ascending (address, key)
order — whereas the claim's write-arrival order would give pair (1, 0) leaf
index 1 (second equation: the claimed output is not produced). -/
theorem C3_counterexample :
    process_raw_entries [⟨1, 0, 10, 0⟩, ⟨0, 0, 20, 1⟩] =
      some [TreeEntry.mk (0, 0) 1 20, TreeEntry.mk (1, 0) 2 10] ∧
    process_raw_entries [⟨1, 0, 10, 0⟩, ⟨0, 0, 20, 1⟩] ≠
      some [TreeEntry.mk (1, 0) 1 10, TreeEntry.mk (0, 0) 2 20] :=
  ⟨rfl, by decide⟩

/-- C3 (amended): every distinct (address, key) pair of the input receives
exactly one leaf index; leaf indexes are 1-based and consecutive; but they are
assigned in ascending lexicographic (address, key) order of the pairs — the
function sorts its input — not in write arrival order. -/
theorem C3_leaf_index_assignment (l : List Record) (out : List TreeEntry)
    (hout : process_raw_entries l = some out) :
    out.map TreeEntry.leaf_index = List.range' 1 out.length ∧
    List.Pairwise (fun e f => pairLt e.key f.key) out ∧
    (∀ a k : Nat, (∃ e ∈ out, e.key = (a, k)) ↔ ∃ r ∈ l, r.addr = a ∧ r.key = k) := by
  obtain ⟨p, rest, hs, hperm, hpair, hform⟩ := process_raw_entries_eq l out hout
  subst hform
  refine ⟨?_, ?_, ?_⟩
  · have hlen : (assignIdx 1 (dedupLast p rest)).length = (dedupLast p rest).length := by
      have := congrArg List.length (assignIdx_leaf_indexes (dedupLast p rest) 1)
      simpa using this
    rw [assignIdx_leaf_indexes (dedupLast p rest) 1, hlen]
  · exact assignIdx_pairwise (dedupLast p rest) (dedupLast_pairwise p rest hpair) 1
  · intro a k
    constructor
    · rintro ⟨e, he, hk⟩
      obtain ⟨x, hx, hxk, _⟩ := assignIdx_mem_src 1 (dedupLast p rest) e he
      obtain ⟨r, hrm, hre⟩ := dedupLast_mem_src p rest x hx
      refine ⟨r, hperm.subset hrm, ?_, ?_⟩
      · have : (x.1, x.2.1) = (a, k) := by rw [← hxk, hk]
        rw [hre] at this
        exact (Prod.mk.injEq _ _ _ _).mp this |>.1
      · have : (x.1, x.2.1) = (a, k) := by rw [← hxk, hk]
        rw [hre] at this
        exact (Prod.mk.injEq _ _ _ _).mp this |>.2
    · rintro ⟨r, hr, hra, hrk⟩
      obtain ⟨m, hm, hma, hmk, hmax⟩ := exists_max_in_group (p :: rest) a k
        ⟨r, hperm.mem_iff.mpr hr, hra, hrk⟩
      have hmem := dedupLast_mem_of_max p rest hpair m hm
        (fun s hsm ha hk2 => hmax s hsm (hma ▸ ha) (hmk ▸ hk2))
      obtain ⟨e, he, hk, _⟩ := assignIdx_mem 1 (dedupLast p rest) _ hmem
      exact ⟨e, he, by rw [hk, hma, hmk]⟩

/-- C3 amended witness: on the counterexample input the two leaf indexes are
exactly [1, 2]. -/
theorem C3_leaf_index_assignment_witness :
    [TreeEntry.mk (0, 0) 1 20, TreeEntry.mk (1, 0) 2 10].map TreeEntry.leaf_index =
      List.range' 1 2 :=
  (C3_leaf_index_assignment [⟨1, 0, 10, 0⟩, ⟨0, 0, 20, 1⟩]
    [TreeEntry.mk (0, 0) 1 20, TreeEntry.mk (1, 0) 2 10] rfl).1

/-- C9: process_raw_entries on an empty record list panics (the unwrap on the
first element of the sorted iterator), modelled as a none result — it does not
return an empty TreeEntry list. -/
theorem C9_empty_input_panics : process_raw_entries [] = none := rfl

/-- C10: two records sharing (address, key, op index) make the sort comparator
of process_raw_entries hit its Equal branch, which panics with "must be
unique" (modelled none); contrapositively every successful run had pairwise
distinct (address, key, op index) triples. -/
theorem C10_duplicate_triple_panics (l : List Record)
    (hdup : ¬ (l.map recTriple).Nodup) : process_raw_entries l = none := by
  rcases hs : sortRecs l with _ | s
  · unfold process_raw_entries
    rw [hs]
    rfl
  · exact absurd (sortRecs_nodup l s hs) hdup

/-- C10 witness: two records with equal (address, key, op) but different
values panic. -/
theorem C10_duplicate_triple_panics_witness :
    (¬ ([Record.mk 0 0 1 0, Record.mk 0 0 2 0].map recTriple).Nodup) ∧
    process_raw_entries [Record.mk 0 0 1 0, Record.mk 0 0 2 0] = none :=
  ⟨by decide, C10_duplicate_triple_panics _ (by decide)⟩

/-! ### Part 5: lemmas about get_blocks_to_process -/

theorem mergeDeps_nil (seen : List Bytecode) : mergeDeps seen [] = (seen, []) := rfl

theorem mergeDeps_cons (seen : List Bytecode) (d : Bytecode) (ds : List Bytecode) :
    mergeDeps seen (d :: ds) =
      if hash_bytecode d ∈ seen then mergeDeps seen ds
      else ((mergeDeps (hash_bytecode d :: seen) ds).1,
        d :: (mergeDeps (hash_bytecode d :: seen) ds).2) := rfl

theorem mergeDeps_spec (ds : List Bytecode) : ∀ seen : List Bytecode,
    (mergeDeps seen ds).1 = ((mergeDeps seen ds).2.map hash_bytecode).reverse ++ seen ∧
    ((mergeDeps seen ds).2.map hash_bytecode).Nodup ∧
    ∀ h ∈ (mergeDeps seen ds).2.map hash_bytecode, h ∉ seen := by
  induction ds with
  | nil => intro seen; simp [mergeDeps_nil]
  | cons d ds ih =>
    intro seen
    rw [mergeDeps_cons]
    by_cases hd : hash_bytecode d ∈ seen
    · rw [if_pos hd]
      exact ih seen
    · rw [if_neg hd]
      obtain ⟨h1, h2, h3⟩ := ih (hash_bytecode d :: seen)
      refine ⟨?_, ?_, ?_⟩
      · simp only [List.map_cons, List.reverse_cons]
        rw [h1]
        simp [List.append_assoc]
      · simp only [List.map_cons]
        refine List.nodup_cons.mpr ⟨?_, h2⟩
        intro hmem
        exact (h3 _ hmem) (List.mem_cons_self _ _)
      · simp only [List.map_cons]
        intro x hm
        rcases List.mem_cons.mp hm with rfl | hm2
        · exact hd
        · intro hseen
          exact (h3 x hm2) (List.mem_cons_of_mem _ hseen)

theorem mergeDeps_append (xs ys : List Bytecode) : ∀ seen,
    mergeDeps seen (xs ++ ys) =
      ((mergeDeps (mergeDeps seen xs).1 ys).1,
       (mergeDeps seen xs).2 ++ (mergeDeps (mergeDeps seen xs).1 ys).2) := by
  induction xs with
  | nil => intro seen; simp [mergeDeps_nil]
  | cons d xs ih =>
    intro seen
    simp only [List.cons_append]
    rw [mergeDeps_cons, mergeDeps_cons]
    by_cases hd : hash_bytecode d ∈ seen
    · rw [if_pos hd, if_pos hd]
      exact ih seen
    · rw [if_neg hd, if_neg hd]
      rw [ih (hash_bytecode d :: seen)]
      simp

theorem drainTxs_zero (queue : List PriorityTx) (seen deps : List Bytecode) (idx : Nat) :
    drainTxs queue seen deps idx 0 = some (seen, deps, idx) := rfl

theorem drainTxs_succ (queue : List PriorityTx) (seen deps : List Bytecode) (idx n : Nat) :
    drainTxs queue seen deps idx (n + 1) =
      match queue.get? idx with
      | none => none
      | some tx => drainTxs queue (mergeDeps seen tx.factory_deps).1
          (deps ++ (mergeDeps seen tx.factory_deps).2) (idx + 1) n := rfl

theorem drop_cons_of_get {α : Type} (l : List α) : ∀ (i : Nat) (a : α),
    l.get? i = some a → l.drop i = a :: l.drop (i + 1) := by
  induction l with
  | nil => intro i a h; simp at h
  | cons x t ih =>
    intro i a h
    cases i with
    | zero =>
      simp only [List.get?_cons_zero, Option.some.injEq] at h
      subst h
      simp
    | succ j =>
      simp only [List.get?_cons_succ] at h
      simp only [List.drop_succ_cons]
      exact ih j a h

theorem drainTxs_some_spec (n : Nat) :
    ∀ (queue : List PriorityTx) (seen deps : List Bytecode) (idx : Nat)
      (out : List Bytecode × List Bytecode × Nat),
    drainTxs queue seen deps idx n = some out →
    out.2.2 = idx + n ∧ (0 < n → idx + n ≤ queue.length) ∧
    out.2.1 = deps ++ (mergeDeps seen
      (((queue.drop idx).take n).flatMap PriorityTx.factory_deps)).2 ∧
    out.1 = (mergeDeps seen
      (((queue.drop idx).take n).flatMap PriorityTx.factory_deps)).1 := by
  induction n with
  | zero =>
    intro queue seen deps idx out h
    rw [drainTxs_zero] at h
    simp only [Option.some.injEq] at h
    subst h
    refine ⟨rfl, by omega, by simp [mergeDeps_nil], by simp [mergeDeps_nil]⟩
  | succ m ih =>
    intro queue seen deps idx out h
    rw [drainTxs_succ] at h
    rcases hq : queue.get? idx with _ | tx <;> rw [hq] at h
    · simp at h
    · have hidx : idx < queue.length := (List.get?_eq_some.mp hq).1
      obtain ⟨hi, hlen, hdeps, hseen⟩ := ih queue _ _ (idx + 1) out h
      have hdropq : queue.drop idx = tx :: queue.drop (idx + 1) :=
        drop_cons_of_get queue idx tx hq
      have htake : (queue.drop idx).take (m + 1) =
          tx :: (queue.drop (idx + 1)).take m := by
        rw [hdropq, List.take_succ_cons]
      refine ⟨by omega, by intro _; omega, ?_, ?_⟩
      · rw [htake, List.flatMap_cons, mergeDeps_append, hdeps, List.append_assoc]
      · rw [htake, List.flatMap_cons, mergeDeps_append, hseen]

theorem mergedDepHashes_nil : mergedDepHashes [] [] = [] := rfl

theorem mergedDepHashes_cons (o r : CommitBlock) (os rs : List CommitBlock) :
    mergedDepHashes (o :: os) (r :: rs) =
      (r.factory_deps.drop o.factory_deps.length).map hash_bytecode ++
        mergedDepHashes os rs := by
  simp [mergedDepHashes]

theorem processBlocks_spec (bs : List CommitBlock) :
    ∀ st st2 : FetchState, bs.foldlM processBlockFD st = some st2 →
      st.last_processed_priority_tx ≤ st.priority_txs.length →
      st2.priority_txs = st.priority_txs ∧
      st2.last_processed_priority_tx =
        st.last_processed_priority_tx +
          (bs.map CommitBlock.priority_operations_count).sum ∧
      st2.last_processed_priority_tx ≤ st2.priority_txs.length ∧
      ∃ outs, st2.result = st.result ++ outs ∧
        List.Forall₂ blockOutRel bs outs ∧
        (mergedDepHashes bs outs).Nodup ∧
        (∀ x ∈ mergedDepHashes bs outs, x ∉ st.factory_deps_hashes) ∧
        st2.factory_deps_hashes =
          (mergedDepHashes bs outs).reverse ++ st.factory_deps_hashes := by
  induction bs with
  | nil =>
    intro st st2 h hle
    simp only [List.foldlM_nil] at h
    have hst : st = st2 := by simpa using h
    subst hst
    exact ⟨rfl, by simp, hle, [], by simp, List.Forall₂.nil,
      by simp [mergedDepHashes_nil], by simp [mergedDepHashes_nil],
      by simp [mergedDepHashes_nil]⟩
  | cons b bs ih =>
    intro st st2 h hle
    simp only [List.foldlM_cons] at h
    rcases hb : processBlockFD st b with _ | st1 <;> rw [hb] at h
    · simp at h
    · simp only [Option.bind_eq_bind, Option.some_bind] at h
      unfold processBlockFD at hb
      rcases hd : drainTxs st.priority_txs st.factory_deps_hashes b.factory_deps
          st.last_processed_priority_tx b.priority_operations_count with _ | r <;>
        rw [hd] at hb
      · simp at hb
      · simp only [Option.map_some', Option.some.injEq] at hb
        obtain ⟨hi, hlen, hdeps, hseen⟩ := drainTxs_some_spec _ _ _ _ _ _ hd
        obtain ⟨hm1, hm2nd, hm2mem⟩ := mergeDeps_spec
          (((st.priority_txs.drop st.last_processed_priority_tx).take
            b.priority_operations_count).flatMap PriorityTx.factory_deps)
          st.factory_deps_hashes
        subst hb
        obtain ⟨htxs, hlast, hle2, outs, hres, hfa, hnd, hdisj, hsn⟩ :=
          ih _ st2 h (by show r.2.2 ≤ st.priority_txs.length; omega)
        dsimp only at htxs hlast hres hdisj hsn
        have hdrop : ({ b with factory_deps := r.2.1 } : CommitBlock).factory_deps.drop
            b.factory_deps.length = (mergeDeps st.factory_deps_hashes
              (((st.priority_txs.drop st.last_processed_priority_tx).take
                b.priority_operations_count).flatMap PriorityTx.factory_deps)).2 := by
          show r.2.1.drop b.factory_deps.length = _
          rw [hdeps]
          exact List.drop_left _ _
        refine ⟨htxs, ?_, hle2,
          ⟨{ b with factory_deps := r.2.1 } :: outs, ?_, ?_, ?_, ?_, ?_⟩⟩
        · simp only [List.map_cons, List.sum_cons]
          omega
        · rw [hres]
          simp
        · exact List.Forall₂.cons ⟨rfl, rfl, ⟨_, hdeps⟩⟩ hfa
        · rw [mergedDepHashes_cons, hdrop]
          refine List.nodup_append.mpr ⟨hm2nd, hnd, ?_⟩
          intro x hx1 hx2
          have hxr : x ∈ r.1 := by
            rw [hseen, hm1]
            exact List.mem_append.mpr (.inl (List.mem_reverse.mpr hx1))
          exact (hdisj x hx2) hxr
        · rw [mergedDepHashes_cons, hdrop]
          intro x hx
          rcases List.mem_append.mp hx with hx1 | hx2
          · exact hm2mem x hx1
          · intro hmem
            refine (hdisj x hx2) ?_
            rw [hseen, hm1]
            exact List.mem_append.mpr (.inr hmem)
        · rw [mergedDepHashes_cons, hdrop, List.reverse_append, List.append_assoc]
          rw [hsn, hseen, hm1]

theorem allPriorityTxs_nil : allPriorityTxs [] = [] := rfl

theorem allPriorityTxs_cons (w : Window) (ws : List Window) :
    allPriorityTxs (w :: ws) = w.priorityTxs ++ allPriorityTxs ws := rfl

theorem origBlocks_nil : origBlocks [] = [] := rfl

theorem origBlocks_cons (w : Window) (ws : List Window) :
    origBlocks (w :: ws) = w.blocks ++ origBlocks ws := rfl

theorem totalPriorityOps_cons (w : Window) (ws : List Window) :
    totalPriorityOps (w :: ws) =
      (w.blocks.map CommitBlock.priority_operations_count).sum + totalPriorityOps ws := by
  unfold totalPriorityOps
  rw [origBlocks_cons, List.map_append, List.sum_append]

theorem mergedDepHashes_append (os1 rs1 os2 rs2 : List CommitBlock)
    (hlen : os1.length = rs1.length) :
    mergedDepHashes (os1 ++ os2) (rs1 ++ rs2) =
      mergedDepHashes os1 rs1 ++ mergedDepHashes os2 rs2 := by
  unfold mergedDepHashes
  rw [List.zip_append hlen, List.flatMap_append, List.map_append]

theorem runWindows_spec (ws : List Window) :
    ∀ st st2 : FetchState, ws.foldlM processWindow st = some st2 →
      st.last_processed_priority_tx ≤ st.priority_txs.length →
      st2.priority_txs = st.priority_txs ++ allPriorityTxs ws ∧
      st2.last_processed_priority_tx =
        st.last_processed_priority_tx + totalPriorityOps ws ∧
      st2.last_processed_priority_tx ≤ st2.priority_txs.length ∧
      ∃ outs, st2.result = st.result ++ outs ∧
        List.Forall₂ blockOutRel (origBlocks ws) outs ∧
        (mergedDepHashes (origBlocks ws) outs).Nodup ∧
        (∀ x ∈ mergedDepHashes (origBlocks ws) outs, x ∉ st.factory_deps_hashes) ∧
        st2.factory_deps_hashes =
          (mergedDepHashes (origBlocks ws) outs).reverse ++ st.factory_deps_hashes := by
  induction ws with
  | nil =>
    intro st st2 h hle
    simp only [List.foldlM_nil] at h
    have hst : st = st2 := by simpa using h
    subst hst
    refine ⟨by simp [allPriorityTxs_nil], ?_, hle, ⟨[], by simp, ?_, ?_, ?_, ?_⟩⟩
    · show st.last_processed_priority_tx = st.last_processed_priority_tx + totalPriorityOps []
      simp [totalPriorityOps, origBlocks_nil]
    · rw [origBlocks_nil]; exact List.Forall₂.nil
    · rw [origBlocks_nil, mergedDepHashes_nil]; exact List.nodup_nil
    · rw [origBlocks_nil, mergedDepHashes_nil]; simp
    · rw [origBlocks_nil, mergedDepHashes_nil]; simp
  | cons w ws ih =>
    intro st st2 h hle
    simp only [List.foldlM_cons] at h
    rcases hw : processWindow st w with _ | st1 <;> rw [hw] at h
    · simp at h
    · simp only [Option.bind_eq_bind, Option.some_bind] at h
      unfold processWindow at hw
      obtain ⟨htxs1, hlast1, hle1, outs1, hres1, hfa1, hnd1, hdisj1, hsn1⟩ :=
        processBlocks_spec w.blocks _ st1 hw
          (by show st.last_processed_priority_tx ≤
                (st.priority_txs ++ w.priorityTxs).length
              rw [List.length_append]
              omega)
      dsimp only at htxs1 hlast1 hres1 hdisj1 hsn1
      obtain ⟨htxs2, hlast2, hle2, outs2, hres2, hfa2, hnd2, hdisj2, hsn2⟩ :=
        ih st1 st2 h hle1
      have hlen1 : w.blocks.length = outs1.length := hfa1.length_eq
      refine ⟨?_, ?_, hle2, ⟨outs1 ++ outs2, ?_, ?_, ?_, ?_, ?_⟩⟩
      · rw [htxs2, htxs1, allPriorityTxs_cons, List.append_assoc]
      · rw [hlast2, hlast1, totalPriorityOps_cons]
        omega
      · rw [hres2, hres1, List.append_assoc]
      · rw [origBlocks_cons]
        exact List.rel_append hfa1 hfa2
      · rw [origBlocks_cons, mergedDepHashes_append _ _ _ _ hlen1]
        refine List.nodup_append.mpr ⟨hnd1, hnd2, ?_⟩
        intro x hx1 hx2
        have hxr : x ∈ st1.factory_deps_hashes := by
          rw [hsn1]
          exact List.mem_append.mpr (.inl (List.mem_reverse.mpr hx1))
        exact (hdisj2 x hx2) hxr
      · rw [origBlocks_cons, mergedDepHashes_append _ _ _ _ hlen1]
        intro x hx
        rcases List.mem_append.mp hx with hx1 | hx2
        · exact hdisj1 x hx1
        · intro hmem
          refine (hdisj2 x hx2) ?_
          rw [hsn1]
          exact List.mem_append.mpr (.inr hmem)
      · rw [origBlocks_cons, mergedDepHashes_append _ _ _ _ hlen1,
          List.reverse_append, List.append_assoc, hsn2, hsn1]

theorem drainTxs_none_of_short (n : Nat) :
    ∀ (queue : List PriorityTx) (seen deps : List Bytecode) (idx : Nat),
      0 < n → queue.length < idx + n →
      drainTxs queue seen deps idx n = none := by
  induction n with
  | zero => intro _ _ _ _ h; omega
  | succ m ih =>
    intro queue seen deps idx _ hlen
    rw [drainTxs_succ]
    rcases hq : queue.get? idx with _ | tx
    · rfl
    · have hidx : idx < queue.length := (List.get?_eq_some.mp hq).1
      cases m with
      | zero => exact absurd hidx (by omega)
      | succ k => exact ih queue _ _ (idx + 1) (by omega) (by omega)

/-- C1 counterexample: a run with one priority transaction carrying bytecode
[7], consumed by a block whose decoded factory deps already contain [7].  The
factory_deps_hashes set only ever receives hashes of priority-merged deps, so
the merge does not see the decoder-supplied copy and the returned batch lists
[7] twice: the multiset of factory-dep hashes across the returned batches has
a duplicate, refuting the claimed global no-duplicate property. -/
theorem C1_counterexample :
    get_blocks_to_process [⟨[⟨0, [[7]]⟩], [⟨1, 1, [[7]]⟩]⟩] =
      some [CommitBlock.mk 1 1 [[7], [7]]] ∧
    ¬ (([CommitBlock.mk 1 1 [[7], [7]]].flatMap CommitBlock.factory_deps).map
        hash_bytecode).Nodup :=
  ⟨rfl, by decide⟩

/-- C1 (amended): factory-dep deduplication covers only the deps merged from
priority transactions: a popped transaction's dep is merged into the batch iff
its hash differs from every dep hash previously merged from priority
transactions anywhere earlier in the run (by any earlier batch or earlier
priority tx), so the multiset of priority-merged dep hashes across all batches
returned by get_blocks_to_process has no duplicate hash; decoder-supplied
factory deps are not deduplicated.  Formally: each returned block extends its
decoded block's dep list, and the hashes of the extensions are pairwise
distinct across the whole run. -/
theorem C1_dedup_scope (ws : List Window) (res : List CommitBlock)
    (h : get_blocks_to_process ws = some res) :
    List.Forall₂ blockOutRel (origBlocks ws) res ∧
    (mergedDepHashes (origBlocks ws) res).Nodup := by
  unfold get_blocks_to_process at h
  rcases hr : ws.foldlM processWindow initState with _ | st2 <;> rw [hr] at h
  · simp at h
  · simp only [Option.map_some', Option.some.injEq] at h
    obtain ⟨-, -, -, outs, hres, hfa, hnd, -, -⟩ :=
      runWindows_spec ws initState st2 hr (by simp [initState])
    rw [hres] at h
    have hro : outs = res := by simpa [initState] using h
    subst hro
    exact ⟨hfa, hnd⟩

/-- C1 amended witness: the counterexample run satisfies the amended law —
its single merged dep [7] appears once among the merged extensions. -/
theorem C1_dedup_scope_witness :
    List.Forall₂ blockOutRel (origBlocks [⟨[⟨0, [[7]]⟩], [⟨1, 1, [[7]]⟩]⟩])
      [CommitBlock.mk 1 1 [[7], [7]]] ∧
    (mergedDepHashes (origBlocks [⟨[⟨0, [[7]]⟩], [⟨1, 1, [[7]]⟩]⟩])
      [CommitBlock.mk 1 1 [[7], [7]]]).Nodup :=
  C1_dedup_scope [⟨[⟨0, [[7]]⟩], [⟨1, 1, [[7]]⟩]⟩] [CommitBlock.mk 1 1 [[7], [7]]] rfl

/-- C4: a block reporting n priority operations consumes exactly the next n
transactions from the front of the unconsumed queue (the contiguous slice at
the cursor, in fetched — ascending serial id — order), advancing the cursor by
n so no transaction is consumed by two blocks; over a whole run the cursor
ends at the total of all blocks' counts, within the fetched queue. -/
theorem C4_priority_drain (st : FetchState) (b : CommitBlock) (st2 : FetchState)
    (hb : processBlockFD st b = some st2)
    (hcur : st.last_processed_priority_tx ≤ st.priority_txs.length)
    (ws : List Window) (res : FetchState)
    (hrun : ws.foldlM processWindow initState = some res) :
    (st2.priority_txs = st.priority_txs ∧
     st2.last_processed_priority_tx =
       st.last_processed_priority_tx + b.priority_operations_count ∧
     st.last_processed_priority_tx + b.priority_operations_count ≤
       st.priority_txs.length ∧
     st2.result = st.result ++ [{ b with factory_deps := b.factory_deps ++
       (mergeDeps st.factory_deps_hashes
         (((st.priority_txs.drop st.last_processed_priority_tx).take
            b.priority_operations_count).flatMap PriorityTx.factory_deps)).2 }]) ∧
    (res.priority_txs = allPriorityTxs ws ∧
     res.last_processed_priority_tx = totalPriorityOps ws ∧
     totalPriorityOps ws ≤ (allPriorityTxs ws).length) := by
  constructor
  · unfold processBlockFD at hb
    rcases hd : drainTxs st.priority_txs st.factory_deps_hashes b.factory_deps
        st.last_processed_priority_tx b.priority_operations_count with _ | r <;>
      rw [hd] at hb
    · simp at hb
    · simp only [Option.map_some', Option.some.injEq] at hb
      obtain ⟨hi, hlen, hdeps, hseen⟩ := drainTxs_some_spec _ _ _ _ _ _ hd
      subst hb
      refine ⟨rfl, ?_, by omega, ?_⟩
      · show r.2.2 = _
        omega
      · show st.result ++ [{ b with factory_deps := r.2.1 }] = _
        rw [hdeps]
  · obtain ⟨htxs, hlast, hle2, -⟩ :=
      runWindows_spec ws initState res hrun (by simp [initState])
    have h1 : res.priority_txs = allPriorityTxs ws := by
      simpa [initState] using htxs
    have h2 : res.last_processed_priority_tx = totalPriorityOps ws := by
      simpa [initState] using hlast
    refine ⟨h1, h2, ?_⟩
    rw [← h1, ← h2]
    exact hle2

/-- C4 witness: one window with one priority transaction (serial id 5, one
dep) and one block claiming one priority operation. -/
theorem C4_priority_drain_witness :
    (([⟨5, [[1]]⟩] : List PriorityTx) = [⟨5, [[1]]⟩] ∧
     (1 : Nat) = 0 + 1 ∧
     0 + 1 ≤ 1 ∧
     ([⟨1, 1, [[1]]⟩] : List CommitBlock) = [] ++ [⟨1, 1, [[1]]⟩]) ∧
    (([⟨5, [[1]]⟩] : List PriorityTx) =
       allPriorityTxs [⟨[⟨5, [[1]]⟩], [⟨1, 1, []⟩]⟩] ∧
     (1 : Nat) = totalPriorityOps [⟨[⟨5, [[1]]⟩], [⟨1, 1, []⟩]⟩] ∧
     totalPriorityOps [⟨[⟨5, [[1]]⟩], [⟨1, 1, []⟩]⟩] ≤
       (allPriorityTxs [⟨[⟨5, [[1]]⟩], [⟨1, 1, []⟩]⟩]).length) :=
  C4_priority_drain ⟨[⟨5, [[1]]⟩], 0, [], []⟩ ⟨1, 1, []⟩
    ⟨[⟨5, [[1]]⟩], 1, [[1]], [⟨1, 1, [[1]]⟩]⟩ rfl (by decide)
    [⟨[⟨5, [[1]]⟩], [⟨1, 1, []⟩]⟩] ⟨[⟨5, [[1]]⟩], 1, [[1]], [⟨1, 1, [[1]]⟩]⟩ rfl

/-- C5: when the queue holds fewer unconsumed priority transactions than a
block's priority_operations_count, processing hits the Vec index panic
(modelled none) instead of returning an error value or skipping the block; a
run whose blocks claim more priority operations than it fetched priority
transactions therefore yields none from get_blocks_to_process. -/
theorem C5_underflow_panics (st : FetchState) (b : CommitBlock) (ws : List Window) :
    (st.priority_txs.length - st.last_processed_priority_tx <
        b.priority_operations_count → processBlockFD st b = none) ∧
    ((allPriorityTxs ws).length < totalPriorityOps ws →
      get_blocks_to_process ws = none) := by
  constructor
  · intro hunder
    unfold processBlockFD
    rw [drainTxs_none_of_short b.priority_operations_count st.priority_txs
      st.factory_deps_hashes b.factory_deps st.last_processed_priority_tx
      (by omega) (by omega)]
    rfl
  · intro hsh
    unfold get_blocks_to_process
    rcases hr : ws.foldlM processWindow initState with _ | res
    · rfl
    · exfalso
      obtain ⟨htxs, hlast, hle2, -⟩ :=
        runWindows_spec ws initState res hr (by simp [initState])
      have h1 : res.priority_txs = allPriorityTxs ws := by
        simpa [initState] using htxs
      have h2 : res.last_processed_priority_tx = totalPriorityOps ws := by
        simpa [initState] using hlast
      rw [h1] at hle2
      rw [h2] at hle2
      omega

/-- C5 witness: an empty queue against a block claiming one priority
operation. -/
theorem C5_underflow_panics_witness :
    processBlockFD ⟨[], 0, [], []⟩ ⟨1, 1, []⟩ = none ∧
    get_blocks_to_process [⟨[], [⟨1, 1, []⟩]⟩] = none :=
  ⟨(C5_underflow_panics ⟨[], 0, [], []⟩ ⟨1, 1, []⟩ [⟨[], [⟨1, 1, []⟩]⟩]).1 (by decide),
   (C5_underflow_panics ⟨[], 0, [], []⟩ ⟨1, 1, []⟩ [⟨[], [⟨1, 1, []⟩]⟩]).2 (by decide)⟩

/-- C6: the wire-format selection in parse_commit_block_info is a pure, total
function of the L1 block number and the ProtocolVersioning: OnlyV3 selects the
blob-carried decoder for every L1 block number including 0; with AllVersions
the thresholds are inclusive lower bounds — at or above the v3 threshold the
blob format, otherwise at or above the v2 threshold the intermediate format,
otherwise the legacy format; and every element of the commit array is decoded
with exactly that selected format. -/
theorem C6_format_selection (v2 v3 n : Nat)
    (decodeElem : WireFormat → Token → Except ParseError CommitBlock)
    (versioning : ProtocolVersioning) (ds : List Token) :
    selectFormat .OnlyV3 n = .Blob ∧
    (v3 ≤ n → selectFormat (.AllVersions v2 v3) n = .Blob) ∧
    (n < v3 → v2 ≤ n → selectFormat (.AllVersions v2 v3) n = .V2) ∧
    (n < v3 → n < v2 → selectFormat (.AllVersions v2 v3) n = .V1) ∧
    parse_commit_block_info decodeElem versioning (.Array ds) n =
      ds.mapM (fun d => decodeElem (selectFormat versioning n) d) := by
  refine ⟨?_, ?_, ?_, ?_, rfl⟩
  · show (if n ≥ (0 : Nat) then WireFormat.Blob
      else if n ≥ (0 : Nat) then WireFormat.V2 else WireFormat.V1) = WireFormat.Blob
    rw [if_pos (Nat.zero_le n)]
  · intro h
    show (if n ≥ v3 then WireFormat.Blob
      else if n ≥ v2 then WireFormat.V2 else WireFormat.V1) = WireFormat.Blob
    rw [if_pos h]
  · intro h1 h2
    show (if n ≥ v3 then WireFormat.Blob
      else if n ≥ v2 then WireFormat.V2 else WireFormat.V1) = WireFormat.V2
    rw [if_neg (by omega), if_pos h2]
  · intro h1 h2
    show (if n ≥ v3 then WireFormat.Blob
      else if n ≥ v2 then WireFormat.V2 else WireFormat.V1) = WireFormat.V1
    rw [if_neg (by omega), if_neg (by omega)]

/-- C6 witness: the boundary values around thresholds 10 and 20, plus OnlyV3
at block 0. -/
theorem C6_format_selection_witness :
    selectFormat .OnlyV3 0 = .Blob ∧
    selectFormat (.AllVersions 10 20) 20 = .Blob ∧
    selectFormat (.AllVersions 10 20) 15 = .V2 ∧
    selectFormat (.AllVersions 10 20) 5 = .V1 :=
  ⟨(C6_format_selection 10 20 0
      (fun _ _ => .error (.InvalidCommitBlockInfo "x")) .OnlyV3 []).1,
   (C6_format_selection 10 20 20
      (fun _ _ => .error (.InvalidCommitBlockInfo "x")) .OnlyV3 []).2.1 (by decide),
   (C6_format_selection 10 20 15
      (fun _ _ => .error (.InvalidCommitBlockInfo "x")) .OnlyV3 []).2.2.1
      (by decide) (by decide),
   (C6_format_selection 10 20 5
      (fun _ _ => .error (.InvalidCommitBlockInfo "x")) .OnlyV3 []).2.2.2.1
      (by decide) (by decide)⟩

theorem except_error_bind {ε α β : Type} (e : ε) (f : α → Except ε β) :
    (Except.error e : Except ε α) >>= f = Except.error e := rfl

theorem except_ok_bind {ε α β : Type} (a : α) (f : α → Except ε β) :
    (Except.ok a : Except ε α) >>= f = f a := rfl

theorem mapM_error_mem {α β : Type} (g : α → Except ParseError β) (ds : List α) :
    ∀ e, ds.mapM g = .error e → ∃ d ∈ ds, g d = .error e := by
  induction ds with
  | nil =>
    intro e h
    rw [List.mapM_nil] at h
    exact absurd h (by intro hc; cases hc)
  | cons d ds ih =>
    intro e h
    rw [List.mapM_cons] at h
    rcases hg : g d with e1 | x <;> rw [hg] at h
    · rw [except_error_bind] at h
      cases h
      exact ⟨d, List.mem_cons_self _ _, hg⟩
    · rw [except_ok_bind] at h
      rcases hm : ds.mapM g with e2 | xs <;> rw [hm] at h
      · rw [except_error_bind] at h
        cases h
        obtain ⟨d2, hd2, hgd2⟩ := ih e hm
        exact ⟨d2, List.mem_cons_of_mem _ hd2, hgd2⟩
      · rw [except_ok_bind] at h
        exact absurd h (by intro hc; cases hc)

/-- C7 counterexample: a commit candidate whose ABI decoder yields an empty
tuple as the previous-state digest.  parse_calldata indexes
stored_block_info[0], which is out of bounds for the empty tuple: the code
panics (modelled none) instead of returning the typed InvalidStoredBlockInfo
error the claim promises whenever the tuple cannot be destructured. -/
theorem C7_counterexample :
    parse_calldata (fun _ _ => .error (.InvalidCommitBlockInfo "unused"))
      .OnlyV3 0 [⟨[1, 2, 3, 4], fun _ => some [.Tuple [], .Array []]⟩]
      [1, 2, 3, 4] = none ∧
    parse_calldata (fun _ _ => .error (.InvalidCommitBlockInfo "unused"))
      .OnlyV3 0 [⟨[1, 2, 3, 4], fun _ => some [.Tuple [], .Array []]⟩]
      [1, 2, 3, 4] ≠
      some (.error (.InvalidStoredBlockInfo "cannot parse previous L1 batch number")) :=
  ⟨rfl, fun h => Option.noConfusion h⟩

theorem getLast?_some_of_ne_nil {α : Type} (l : List α) (h : l ≠ []) :
    ∃ a, l.getLast? = some a := by
  rcases hg : l.getLast? with _ | a
  · rw [List.getLast?_eq_getElem?, List.getElem?_eq_none_iff] at hg
    cases l with
    | nil => exact absurd rfl h
    | cons x t =>
      simp only [List.length_cons] at hg
      omega
  · exact ⟨a, rfl⟩

/-- C7 (amended): parse_calldata returns InvalidCalldata exactly when the
input is shorter than a 4-byte selector, or no known commit function matches,
or argument decoding fails (including a previous-state argument that is not a
tuple at all), or the argument count is neither 2 nor 3; it returns
InvalidStoredBlockInfo when the previous-state tuple's first or third field
exists but is not an unsigned integer; but a tuple with no first field, or a
Uint first field and no third field, makes the code panic on Vec indexing
(modelled none) instead of returning a typed error.  The "exactly" direction
assumes the external per-element decoder never reports InvalidCalldata
itself. -/
theorem C7_error_taxonomy
    (de : WireFormat → Token → Except ParseError CommitBlock)
    (v : ProtocolVersioning) (n : Nat) (cands : List FunctionABI)
    (cd : List Nat) (f : FunctionABI) (args : List Token) (fields : List Token)
    (t0 t2 : Token)
    (hde : ∀ fmt t m, de fmt t ≠ .error (.InvalidCalldata m)) :
    (cd.length < 4 →
      parse_calldata de v n cands cd = some (.error (.InvalidCalldata "too short"))) ∧
    (¬ cd.length < 4 →
      cands.find? (fun g => g.short_signature == cd.take 4) = none →
      parse_calldata de v n cands cd =
        some (.error (.InvalidCalldata "signature not found"))) ∧
    (¬ cd.length < 4 →
      cands.find? (fun g => g.short_signature == cd.take 4) = some f →
      f.decode_input (cd.drop 4) = none →
      parse_calldata de v n cands cd =
        some (.error (.InvalidCalldata "cannot decode input"))) ∧
    (¬ cd.length < 4 →
      cands.find? (fun g => g.short_signature == cd.take 4) = some f →
      f.decode_input (cd.drop 4) = some args →
      args.length ≠ 2 → args.length ≠ 3 →
      parse_calldata de v n cands cd =
        some (.error (.InvalidCalldata "invalid number of parameters"))) ∧
    (¬ cd.length < 4 →
      cands.find? (fun g => g.short_signature == cd.take 4) = some f →
      f.decode_input (cd.drop 4) = some args →
      (args.length = 2 ∨ args.length = 3) →
      args.dropLast.getLast? = some t0 →
      (∀ fs, t0 ≠ .Tuple fs) →
      parse_calldata de v n cands cd =
        some (.error (.InvalidCalldata "invalid StoredBlockInfo"))) ∧
    (¬ cd.length < 4 →
      cands.find? (fun g => g.short_signature == cd.take 4) = some f →
      f.decode_input (cd.drop 4) = some args →
      (args.length = 2 ∨ args.length = 3) →
      args.dropLast.getLast? = some (.Tuple fields) →
      fields.get? 0 = none →
      parse_calldata de v n cands cd = none) ∧
    (¬ cd.length < 4 →
      cands.find? (fun g => g.short_signature == cd.take 4) = some f →
      f.decode_input (cd.drop 4) = some args →
      (args.length = 2 ∨ args.length = 3) →
      args.dropLast.getLast? = some (.Tuple fields) →
      fields.get? 0 = some t0 →
      (∀ u, t0 ≠ .Uint u) →
      parse_calldata de v n cands cd =
        some (.error (.InvalidStoredBlockInfo "cannot parse previous L1 batch number"))) ∧
    (¬ cd.length < 4 →
      cands.find? (fun g => g.short_signature == cd.take 4) = some f →
      f.decode_input (cd.drop 4) = some args →
      (args.length = 2 ∨ args.length = 3) →
      args.dropLast.getLast? = some (.Tuple fields) →
      (∃ u, fields.get? 0 = some (.Uint u)) →
      fields.get? 2 = none →
      parse_calldata de v n cands cd = none) ∧
    (¬ cd.length < 4 →
      cands.find? (fun g => g.short_signature == cd.take 4) = some f →
      f.decode_input (cd.drop 4) = some args →
      (args.length = 2 ∨ args.length = 3) →
      args.dropLast.getLast? = some (.Tuple fields) →
      (∃ u, fields.get? 0 = some (.Uint u)) →
      fields.get? 2 = some t2 →
      (∀ u, t2 ≠ .Uint u) →
      parse_calldata de v n cands cd =
        some (.error (.InvalidStoredBlockInfo "cannot parse previous enumeration index"))) ∧
    (∀ m, parse_calldata de v n cands cd = some (.error (.InvalidCalldata m)) →
      cd.length < 4 ∨
      cands.find? (fun g => g.short_signature == cd.take 4) = none ∨
      ∃ g, cands.find? (fun g2 => g2.short_signature == cd.take 4) = some g ∧
        (g.decode_input (cd.drop 4) = none ∨
         ∃ as2, g.decode_input (cd.drop 4) = some as2 ∧
           ((as2.length ≠ 2 ∧ as2.length ≠ 3) ∨
            ∃ s, as2.dropLast.getLast? = some s ∧ ∀ fs, s ≠ Token.Tuple fs))) := by
  have hnb : ∀ (as2 : List Token), (as2.length = 2 ∨ as2.length = 3) →
      ∃ b, as2.getLast? = some b := by
    intro as2 hl
    refine getLast?_some_of_ne_nil as2 ?_
    intro he
    subst he
    simp at hl
  have hsb : ∀ (as2 : List Token), (as2.length = 2 ∨ as2.length = 3) →
      ∃ b, as2.dropLast.getLast? = some b := by
    intro as2 hl
    refine getLast?_some_of_ne_nil as2.dropLast ?_
    intro he
    have := congrArg List.length he
    simp only [List.length_dropLast, List.length_nil] at this
    omega
  refine ⟨?_, ?_, ?_, ?_, ?_, ?_, ?_, ?_, ?_, ?_⟩
  · intro h1
    unfold parse_calldata
    rw [if_pos h1]
  · intro h1 h2
    unfold parse_calldata
    rw [if_neg h1]
    simp only [h2]
  · intro h1 h2 h3
    unfold parse_calldata
    rw [if_neg h1]
    simp only [h2, h3]
  · intro h1 h2 h3 h4 h5
    unfold parse_calldata
    rw [if_neg h1]
    simp only [h2, h3]
    rw [if_pos ⟨h4, h5⟩]
  · intro h1 h2 h3 h4 h5 h6
    obtain ⟨nb, hnbv⟩ := hnb args h4
    unfold parse_calldata
    rw [if_neg h1]
    simp only [h2, h3]
    rw [if_neg (by rcases h4 with h | h <;> simp [h])]
    simp only [hnbv, h5]
  · intro h1 h2 h3 h4 h5 h6
    obtain ⟨nb, hnbv⟩ := hnb args h4
    unfold parse_calldata
    rw [if_neg h1]
    simp only [h2, h3]
    rw [if_neg (by rcases h4 with h | h <;> simp [h])]
    simp only [hnbv, h5, h6]
  · intro h1 h2 h3 h4 h5 h6 h7
    obtain ⟨nb, hnbv⟩ := hnb args h4
    unfold parse_calldata
    rw [if_neg h1]
    simp only [h2, h3]
    rw [if_neg (by rcases h4 with h | h <;> simp [h])]
    simp only [hnbv, h5, h6]
  · intro h1 h2 h3 h4 h5 h6 h7
    obtain ⟨u, hu⟩ := h6
    obtain ⟨nb, hnbv⟩ := hnb args h4
    unfold parse_calldata
    rw [if_neg h1]
    simp only [h2, h3]
    rw [if_neg (by rcases h4 with h | h <;> simp [h])]
    simp only [hnbv, h5, hu, h7]
  · intro h1 h2 h3 h4 h5 h6 h7 h8
    obtain ⟨u, hu⟩ := h6
    obtain ⟨nb, hnbv⟩ := hnb args h4
    unfold parse_calldata
    rw [if_neg h1]
    simp only [h2, h3]
    rw [if_neg (by rcases h4 with h | h <;> simp [h])]
    simp only [hnbv, h5, hu, h7]
  · intro m hm
    by_cases h1 : cd.length < 4
    · exact .inl h1
    · rcases hf : cands.find? (fun g => g.short_signature == cd.take 4) with _ | g
      · exact .inr (.inl hf)
      · refine .inr (.inr ⟨g, hf, ?_⟩)
        rcases hdec : g.decode_input (cd.drop 4) with _ | as2
        · exact .inl rfl
        · refine .inr ⟨as2, rfl, ?_⟩
          by_cases harity : as2.length ≠ 2 ∧ as2.length ≠ 3
          · exact .inl harity
          · refine .inr ?_
            have harity2 : as2.length = 2 ∨ as2.length = 3 := by
              by_cases ha2 : as2.length = 2
              · exact .inl ha2
              · refine .inr ?_
                by_cases ha3 : as2.length = 3
                · exact ha3
                · exact absurd ⟨ha2, ha3⟩ harity
            obtain ⟨nb, hnbv⟩ := hnb as2 harity2
            obtain ⟨s, hsv⟩ := hsb as2 harity2
            unfold parse_calldata at hm
            rw [if_neg h1] at hm
            simp only [hf, hdec] at hm
            rw [if_neg harity] at hm
            simp only [hnbv, hsv] at hm
            cases s with
            | Uint u => exact ⟨.Uint u, hsv, fun fs h => Token.noConfusion h⟩
            | Array es => exact ⟨.Array es, hsv, fun fs h => Token.noConfusion h⟩
            | Other => exact ⟨.Other, hsv, fun fs h => Token.noConfusion h⟩
            | Tuple fs =>
              exfalso
              dsimp only at hm
              rcases h0 : fs.get? 0 with _ | ft0
              · rw [h0] at hm
                exact Option.noConfusion hm
              · rw [h0] at hm
                cases ft0 with
                | Tuple xs => simp at hm
                | Array xs => simp at hm
                | Other => simp at hm
                | Uint u0 =>
                  rcases h2t : fs.get? 2 with _ | ft2
                  · rw [h2t] at hm
                    exact Option.noConfusion hm
                  · rw [h2t] at hm
                    cases ft2 with
                    | Tuple xs => simp at hm
                    | Array xs => simp at hm
                    | Other => simp at hm
                    | Uint u2 =>
                      simp only [Option.some.injEq] at hm
                      rcases hpe : parse_commit_block_info de v nb n with e | bs
                      · rw [hpe] at hm
                        unfold parse_commit_block_info at hpe
                        cases nb with
                        | Array ds =>
                          have he : e = ParseError.InvalidCalldata m := by
                            cases hm
                            rfl
                          subst he
                          obtain ⟨d, hd, hgd⟩ := mapM_error_mem _ ds _ hpe
                          exact hde _ d m hgd
                        | Uint u3 =>
                          cases hpe
                          cases hm
                        | Tuple xs =>
                          cases hpe
                          cases hm
                        | Other =>
                          cases hpe
                          cases hm
                      · rw [hpe] at hm
                        cases hm


/-- C7 amended witness: the short-calldata case at a concrete input, with a
per-element decoder that never reports InvalidCalldata. -/
theorem C7_error_taxonomy_witness :
    parse_calldata (fun _ _ => .error (.InvalidCommitBlockInfo "x")) .OnlyV3 0 [] [1, 2] =
      some (.error (.InvalidCalldata "too short")) :=
  (C7_error_taxonomy (fun _ _ => .error (.InvalidCommitBlockInfo "x")) .OnlyV3 0 [] [1, 2]
    ⟨[], fun _ => none⟩ [] [] .Other .Other
    (by intro fmt t m h; simp at h)).1 (by decide)

/-- C8: retry_call makes at most MAX_RETRIES = 5 attempts; each backoff sleep
lasts 2000 + jitter % 500 milliseconds, i.e. at least 2000 and under 2500; if
all five attempts fail the call fails with the supplied transport error; and
process_tx_data returns a parse (decode-layer) error to its caller unchanged —
the single loop iteration either breaks with the result or returns the error,
so ParseError values are never retried. -/
theorem C8_retry_policy {T : Type} (callback : Nat → Option T)
    (jitter : Nat → Nat) (err : L1FetchError)
    (de : WireFormat → Token → Except ParseError CommitBlock)
    (v : ProtocolVersioning) (n : Nat) (cands : List FunctionABI)
    (cd : List Nat) (pe : ParseError) :
    (retry_call callback jitter err).attempts ≤ 5 ∧
    (∀ d ∈ (retry_call callback jitter err).sleeps, 2000 ≤ d ∧ d < 2500) ∧
    ((∀ i, 1 ≤ i → i ≤ 5 → callback i = none) →
      (retry_call callback jitter err).result = .error err) ∧
    (parse_calldata de v n cands cd = some (.error pe) →
      process_tx_data de v n cands cd = some (.error pe)) := by
  have haux : ∀ (k a : Nat),
      (retryAux callback jitter err k a).attempts ≤ k ∧
      (∀ d ∈ (retryAux callback jitter err k a).sleeps, 2000 ≤ d ∧ d < 2500) ∧
      ((∀ i, a ≤ i → i < a + k → callback i = none) →
        (retryAux callback jitter err k a).result = .error err) := by
    intro k
    induction k with
    | zero =>
      intro a
      refine ⟨Nat.le_refl 0, ?_, fun _ => rfl⟩
      intro d hd
      exact absurd hd (List.not_mem_nil d)
    | succ m ih =>
      intro a
      obtain ⟨ih1, ih2, ih3⟩ := ih (a + 1)
      unfold retryAux
      rcases hc : callback a with _ | x
      · refine ⟨?_, ?_, ?_⟩
        · show (retryAux callback jitter err m (a + 1)).attempts + 1 ≤ m + 1
          omega
        · intro d hd
          have hd2 : d ∈ (2000 + jitter a % 500) ::
              (retryAux callback jitter err m (a + 1)).sleeps := hd
          rcases List.mem_cons.mp hd2 with rfl | hd3
          · have hj : jitter a % 500 < 500 := Nat.mod_lt (jitter a) (by omega)
            omega
          · exact ih2 d hd3
        · intro hall
          show (retryAux callback jitter err m (a + 1)).result = .error err
          exact ih3 (fun i hi1 hi2 => hall i (by omega) (by omega))
      · refine ⟨?_, ?_, ?_⟩
        · show (1 : Nat) ≤ m + 1
          omega
        · intro d hd
          exact absurd hd (List.not_mem_nil d)
        · intro hall
          exfalso
          have hna := hall a (by omega) (by omega)
          rw [hc] at hna
          cases hna
  obtain ⟨h1, h2, h3⟩ := haux MAX_RETRIES 1
  have hmr : MAX_RETRIES = 5 := rfl
  rw [hmr] at h1 h3
  exact ⟨h1, h2, fun hall => h3 (fun i hi1 hi2 => hall i hi1 (by omega)), fun h => h⟩

/-- C8 witness: a callback that always fails, with jitter i * 700, makes
exactly 5 attempts, sleeps in [2000, 2500), and fails with GetLogs; a
parse error input to process_tx_data is returned unchanged. -/
theorem C8_retry_policy_witness :
    (retry_call (fun _ => (none : Option Nat)) (fun i => i * 700) .GetLogs).attempts ≤ 5 ∧
    (retry_call (fun _ => (none : Option Nat)) (fun i => i * 700) .GetLogs).result =
      .error .GetLogs ∧
    process_tx_data (fun _ _ => .error (.InvalidCommitBlockInfo "x")) .OnlyV3 0 [] [] =
      some (.error (.InvalidCalldata "too short")) :=
  ⟨(C8_retry_policy (fun _ => (none : Option Nat)) (fun i => i * 700) .GetLogs
      (fun _ _ => .error (.InvalidCommitBlockInfo "x")) .OnlyV3 0 [] []
      (.InvalidCalldata "too short")).1,
   (C8_retry_policy (fun _ => (none : Option Nat)) (fun i => i * 700) .GetLogs
      (fun _ _ => .error (.InvalidCommitBlockInfo "x")) .OnlyV3 0 [] []
      (.InvalidCalldata "too short")).2.2.1 (fun _ _ _ => rfl),
   (C8_retry_policy (fun _ => (none : Option Nat)) (fun i => i * 700) .GetLogs
      (fun _ _ => .error (.InvalidCommitBlockInfo "x")) .OnlyV3 0 [] []
      (.InvalidCalldata "too short")).2.2.2 rfl⟩
